import Mathlib

/-! # Backup catalog of wal-g (`backup.go`)

A shallow embedding of `backup.go`: the key parser `stripNameBackup`, the
latest-backup selection `Backup.GetLatest`, the existence probes
`Backup.CheckExistence` / `Archive.CheckExistence`, the key enumeration
`Backup.GetKeys` and the two stream openers `S3ReaderMaker.Reader` /
`Archive.GetArchive`.

Conventions of the embedding.

* A Go `string` is a list of characters.  The only separators the program uses
  are the ASCII texts "/" and "_backup", for which splitting a UTF-8 text by
  characters and by bytes agree.
* A Go function that can panic returns `Except Panic α`; `Except.ok` is a normal
  return and `Except.error` a panic.
* A call through the `s3iface.S3API` interface returns `Except GoError α`
  (`err != nil` is `Except.error`).  The service is a parameter of every
  operation, as it is in the program (`b.Prefix.Svc`).
* Pointers are assumed non-nil and are embedded as the value they point to.
-/

namespace Walg

/-! ## Go values -/

deriving instance DecidableEq for Except

/-- Go `string`. -/
abbrev GoString := List Char

/-- Go `time.Time`, as an instant on a totally ordered time line. -/
abbrev Time := Int

/-- Go `io.ReadCloser`, as the bytes the stream delivers. -/
abbrev ReadCloser := List Nat

/-- Go `error` values: those that implement `awserr.Error` (and so have a
`Code()`), and all the others. -/
inductive GoError where
  | awserr (code message : GoString)
  | plain (message : GoString)
  deriving DecidableEq, Repr

/-- The ways a call of this file can panic: `panic(err)` with a service error,
or the run-time error of an index expression `a[index]` on a slice of `length`
elements. -/
inductive Panic where
  | err (e : GoError)
  | indexOutOfRange (index length : Nat)
  deriving DecidableEq, Repr

/-! ## The parts of package `strings` the program calls -/

/-- Go `strings.HasPrefix(s, sep)`. -/
def HasPrefix : GoString → GoString → Bool
  | _, [] => true
  | [], _ :: _ => false
  | c :: cs, d :: ds => c == d && HasPrefix cs ds

/-- Go `strings.Index(s, sep)`: the position of the first occurrence of `sep`
in `s`; `none` is Go's `-1`. -/
def Index : GoString → GoString → Option Nat
  | [], sep => if HasPrefix [] sep then some 0 else none
  | c :: cs, sep =>
    if HasPrefix (c :: cs) sep then some 0
    else match Index cs sep with
      | some m => some (m + 1)
      | none => none

/-- The loop of Go `strings.Count` for a non-empty `substr`: find the next
occurrence, count it, continue behind it.  Every round removes at least one
character, so `fuel = len(s)` rounds are enough. -/
def countLoop (substr : GoString) : Nat → GoString → Nat
  | 0, _ => 0
  | fuel + 1, s =>
    match Index s substr with
    | none => 0
    | some i => countLoop substr fuel (s.drop (i + substr.length)) + 1

/-- Go `strings.Count(s, substr)`: the number of non-overlapping occurrences
(`len(s) + 1` for the empty `substr`). -/
def Count (s substr : GoString) : Nat :=
  if substr = [] then s.length + 1 else countLoop substr s.length s

/-- The `for i < n` loop of Go `strings.genSplit`; the first argument is the
number `n - i` of rounds left. -/
def splitLoop (sep : GoString) (sepSave : Nat) : Nat → GoString → List GoString
  | 0, s => [s]
  | n + 1, s =>
    match Index s sep with
    | none => [s]
    | some m => s.take (m + sepSave) :: splitLoop sep sepSave n (s.drop (m + sep.length))

/-- Go `strings.genSplit(s, sep, sepSave, -1)`: for the empty separator the
text is exploded into its characters; otherwise `n = Count(s, sep) + 1`, cut
down to `len(s) + 1`, is the number of slots, and the loop runs while
`i < n - 1`. -/
def genSplit (s sep : GoString) (sepSave : Nat) : List GoString :=
  if sep = [] then s.map (fun c => [c])
  else
    let n := Count s sep + 1
    let n := if n > s.length + 1 then s.length + 1 else n
    splitLoop sep sepSave (n - 1) s

/-- Go `strings.Split(s, sep)`. -/
def Split (s sep : GoString) : List GoString := genSplit s sep 0

/-- Go `strings.SplitAfter(s, sep)`: the pieces keep their separator. -/
def SplitAfter (s sep : GoString) : List GoString := genSplit s sep sep.length

/-- The text "/". -/
def slash : GoString := ['/']

/-- The text "_backup". -/
def backupMarker : GoString := ['_', 'b', 'a', 'c', 'k', 'u', 'p']

/-- Go index expression `a[i]` on a slice: a run-time panic when `i` is out of
range. -/
def index {α : Type} (a : List α) (i : Nat) : Except Panic α :=
  match a[i]? with
  | some v => .ok v
  | none => .error (.indexOutOfRange i a.length)

/-! ## `stripNameBackup` -/

/-- Source `stripNameBackup` (backup.go, lines 93-97). -/
def stripNameBackup (key : GoString) : Except Panic GoString := do
  let all := SplitAfter key slash
  let third ← index all 2
  let name ← index (Split third backupMarker) 0
  pure name

/-! ## The object-store interface (`s3iface.S3API`) -/

/-- Go `s3.Object`, one entry of a listing: the two fields the program reads. -/
structure Object where
  Key : GoString
  LastModified : Time
  deriving DecidableEq, Repr

/-- Go `s3.GetObjectInput` and `s3.HeadObjectInput`: the fields the program
sets. -/
structure ObjectInput where
  Bucket : GoString
  Key : GoString
  deriving DecidableEq, Repr

/-- Go `s3.GetObjectOutput`: the field the program reads. -/
structure GetObjectOutput where
  Body : ReadCloser
  deriving DecidableEq, Repr

/-- Go `s3.HeadObjectOutput`; the program discards it. -/
structure HeadObjectOutput where
  ContentLength : Nat
  deriving DecidableEq, Repr

/-- Go `s3.ListObjectsV2Input`.  The program sets `Bucket`, `Prefix` and (in
`GetLatest`) `Delimiter`; it never sets `ContinuationToken`. -/
structure ListObjectsV2Input where
  Bucket : GoString
  Prefix : GoString
  Delimiter : Option GoString
  ContinuationToken : Option Nat
  deriving DecidableEq, Repr

/-- Go `s3.ListObjectsV2Output`.  The program reads `Contents` only. -/
structure ListObjectsV2Output where
  Contents : List Object
  IsTruncated : Bool
  NextContinuationToken : Option Nat
  deriving DecidableEq, Repr

/-- The three methods of `s3iface.S3API` the program calls. -/
structure S3API where
  GetObject : ObjectInput → Except GoError GetObjectOutput
  HeadObject : ObjectInput → Except GoError HeadObjectOutput
  ListObjectsV2 : ListObjectsV2Input → Except GoError ListObjectsV2Output

/-! ## The entities of `backup.go` -/

/-- Source `Prefix` (backup.go, lines 49-53). -/
structure Prefix where
  Svc : S3API
  Bucket : GoString
  Server : GoString

/-- Source `Backup` (backup.go, lines 55-60). -/
structure Backup where
  Prefix : Prefix
  Path : GoString
  Name : GoString
  Js : GoString

set_option linter.dupNamespace false in
/-- Source `Archive` (backup.go, lines 144-147). -/
structure Archive where
  Prefix : Prefix
  Archive : GoString

/-- Source `S3ReaderMaker` (backup.go, lines 23-27). -/
structure S3ReaderMaker where
  Backup : Backup
  Key : GoString
  FileFormat : GoString

/-- Modelled from the spec: the type `BackupTime` is declared outside
`backup.go`; the spec describes it as the "ephemeral pairing of a backup name
and its last-modified timestamp", and `GetLatest` builds it as
`BackupTime{name, time}` and reads `.Name`. -/
structure BackupTime where
  Name : GoString
  Time : Time
  deriving DecidableEq, Repr

/-- Modelled from the spec: the method `Less` of `TimeSlice` is declared
outside `backup.go`; the spec says "Sort entries ascending by timestamp", so an
entry goes before another when its timestamp is earlier. -/
def TimeSlice.Less (a b : BackupTime) : Bool := decide (a.Time < b.Time)

/-- The order latest first (`Less(i, j)` when entry `i` is later than entry
`j`): the order under which element 0 of the sorted slice is the latest backup,
as the doc comment of `GetLatest` in the source says it is. -/
def latestFirst (a b : BackupTime) : Bool := decide (b.Time < a.Time)

/-! ## `sort.Sort` -/

/-- Inner loop of Go `insertionSort`: the new element `x` stands to the right of
the part already sorted (held here from right to left) and is swapped towards
the left as long as `Less(x, left neighbour)`. -/
def insertLeft {α : Type} (less : α → α → Bool) (x : α) : List α → List α
  | [] => [x]
  | y :: ys => if less x y then y :: insertLeft less x ys else x :: y :: ys

/-- Go `sort.Sort(data)`, by the `insertionSort` of package `sort`, the routine
the package runs on short slices.  The sorted part is held from right to left
and turned round at the end.  On longer slices the package sorts by other
exchanges; the result is the same whenever `Less` is a strict total order on the
entries, and it is a rearrangement of the entries in every case. -/
def sortSort {α : Type} (less : α → α → Bool) (data : List α) : List α :=
  (data.foldl (fun sorted x => insertLeft less x sorted) []).reverse

/-! ## `Backup.GetLatest` -/

/-- The `for i, ob := range backups.Contents` loop of `GetLatest` (backup.go,
lines 79-83): a panic of `stripNameBackup` ends the loop. -/
def sortTimesLoop : List Object → Except Panic (List BackupTime)
  | [] => pure []
  | ob :: rest => do
    let name ← stripNameBackup ob.Key
    let tail ← sortTimesLoop rest
    pure ({ Name := name, Time := ob.LastModified } :: tail)

/-- The request `objects` that `GetLatest` builds (backup.go, lines 66-70). -/
def Backup.GetLatestInput (b : Backup) : ListObjectsV2Input :=
  { Bucket := b.Prefix.Bucket, Prefix := b.Path, Delimiter := some slash,
    ContinuationToken := none }

/-- Source `Backup.GetLatest` (backup.go, lines 65-88), with the `Less` of
`TimeSlice` as a parameter. -/
def Backup.GetLatestWith (less : BackupTime → BackupTime → Bool) (b : Backup) :
    Except Panic GoString :=
  match b.Prefix.Svc.ListObjectsV2 b.GetLatestInput with
  | .error e => .error (.err e)
  | .ok backups => do
    let sortTimes ← sortTimesLoop backups.Contents
    let sorted := sortSort less sortTimes
    let first ← index sorted 0
    pure first.Name

/-- Source `Backup.GetLatest` with the ordering of `TimeSlice.Less`. -/
def Backup.GetLatest (b : Backup) : Except Panic GoString :=
  b.GetLatestWith TimeSlice.Less

/-! ## Existence probes -/

/-- The text "NotFound". -/
def notFound : GoString := ['N', 'o', 't', 'F', 'o', 'u', 'n', 'd']

/-- The request `js` that `Backup.CheckExistence` builds (backup.go, lines
103-106). -/
def Backup.CheckExistenceInput (b : Backup) : ObjectInput :=
  { Bucket := b.Prefix.Bucket, Key := b.Js }

/-- Source `Backup.CheckExistence` (backup.go, lines 102-118). -/
def Backup.CheckExistence (b : Backup) : Bool :=
  match b.Prefix.Svc.HeadObject b.CheckExistenceInput with
  | .error err =>
    match err with
    | .awserr code _ => if code = notFound then false else true
    | .plain _ => true
  | .ok _ => true

/-- The request `arch` that `Archive.CheckExistence` builds (backup.go, lines
153-156). -/
def Archive.CheckExistenceInput (a : Walg.Archive) : ObjectInput :=
  { Bucket := a.Prefix.Bucket, Key := a.Archive }

/-- Source `Archive.CheckExistence` (backup.go, lines 152-168). -/
def Archive.CheckExistence (a : Walg.Archive) : Bool :=
  match a.Prefix.Svc.HeadObject a.CheckExistenceInput with
  | .error err =>
    match err with
    | .awserr code _ => if code = notFound then false else true
    | .plain _ => true
  | .ok _ => true

/-! ## Key enumeration -/

/-- The text "/tar_partitions". -/
def tarPartitions : GoString :=
  ['/', 't', 'a', 'r', '_', 'p', 'a', 'r', 't', 'i', 't', 'i', 'o', 'n', 's']

/-- The request `objects` that `GetKeys` builds (backup.go, lines 124-127). -/
def Backup.GetKeysInput (b : Backup) : ListObjectsV2Input :=
  { Bucket := b.Prefix.Bucket, Prefix := b.Path ++ b.Name ++ tarPartitions,
    Delimiter := none, ContinuationToken := none }

/-- Source `Backup.GetKeys` (backup.go, lines 123-142). -/
def Backup.GetKeys (b : Backup) : Except Panic (List GoString) :=
  match b.Prefix.Svc.ListObjectsV2 b.GetKeysInput with
  | .error e => .error (.err e)
  | .ok files => .ok (files.Contents.map (fun ob => ob.Key))

/-! ## Stream openers -/

/-- Source `S3ReaderMaker.Format` (backup.go, line 29). -/
def S3ReaderMaker.Format (s : S3ReaderMaker) : GoString := s.FileFormat

/-- Source `S3ReaderMaker.Path` (backup.go, line 30). -/
def S3ReaderMaker.Path (s : S3ReaderMaker) : GoString := s.Key

/-- The request `input` that `Reader` builds (backup.go, lines 36-39). -/
def S3ReaderMaker.ReaderInput (s : S3ReaderMaker) : ObjectInput :=
  { Bucket := s.Backup.Prefix.Bucket, Key := s.Key }

/-- Source `S3ReaderMaker.Reader` (backup.go, lines 35-47). -/
def S3ReaderMaker.Reader (s : S3ReaderMaker) : Except Panic ReadCloser :=
  match s.Backup.Prefix.Svc.GetObject s.ReaderInput with
  | .error e => .error (.err e)
  | .ok rdr => .ok rdr.Body

/-- The request `input` that `GetArchive` builds (backup.go, lines 174-177). -/
def Archive.GetArchiveInput (a : Walg.Archive) : ObjectInput :=
  { Bucket := a.Prefix.Bucket, Key := a.Archive }

/-- Source `Archive.GetArchive` (backup.go, lines 173-185). -/
def Archive.GetArchive (a : Walg.Archive) : Except Panic ReadCloser :=
  match a.Prefix.Svc.GetObject a.GetArchiveInput with
  | .error e => .error (.err e)
  | .ok archive => .ok archive.Body

/-! ## An object store to run the program against -/

/-- An object held by the store. -/
structure StoredObject where
  Key : GoString
  LastModified : Time
  Body : ReadCloser
  deriving DecidableEq, Repr

/-- A bucket: its objects in listing order, and the largest number of entries
the store puts into one listing response (the page size). -/
structure Store where
  objects : List StoredObject
  maxKeys : Nat

/-- The listing entry of a stored object. -/
def StoredObject.entry (o : StoredObject) : Object :=
  { Key := o.Key, LastModified := o.LastModified }

/-- All listing entries of the store whose key begins with `pre`. -/
def Store.matching (st : Store) (pre : GoString) : List Object :=
  (st.objects.filter (fun o => HasPrefix o.Key pre)).map StoredObject.entry

/-- One listing response of the store: the page of at most `maxKeys` matching
entries that starts at the continuation token (at the first entry when the
request has none), and the token of the next page when entries remain.  The
grouping of keys by `Delimiter` is left out; the store is used for requests
without one. -/
def Store.ListObjectsV2 (st : Store) (input : ListObjectsV2Input) : ListObjectsV2Output :=
  let start := input.ContinuationToken.getD 0
  let rest := (st.matching input.Prefix).drop start
  { Contents := rest.take st.maxKeys,
    IsTruncated := decide (st.maxKeys < rest.length),
    NextContinuationToken := if st.maxKeys < rest.length then some (start + st.maxKeys) else none }

/-- The text "NoSuchKey". -/
def noSuchKey : GoString := ['N', 'o', 'S', 'u', 'c', 'h', 'K', 'e', 'y']

/-- The store as a service: listings are paged, and a probe or a retrieval of a
key that is not stored is answered by the error the real store gives. -/
def Store.service (st : Store) : S3API where
  GetObject input :=
    match st.objects.find? (fun o => o.Key == input.Key) with
    | some o => .ok { Body := o.Body }
    | none => .error (.awserr noSuchKey [])
  HeadObject input :=
    match st.objects.find? (fun o => o.Key == input.Key) with
    | some o => .ok { ContentLength := o.Body.length }
    | none => .error (.awserr notFound [])
  ListObjectsV2 input := .ok (st.ListObjectsV2 input)

/-- A service that answers every listing with the given entries and holds no
object. -/
def listingService (contents : List Object) : S3API where
  GetObject _ := .error (.awserr noSuchKey [])
  HeadObject _ := .error (.awserr notFound [])
  ListObjectsV2 _ :=
    .ok { Contents := contents, IsTruncated := false, NextContinuationToken := none }

/-- A service that answers every call with the given error. -/
def failingService (e : GoError) : S3API where
  GetObject _ := .error e
  HeadObject _ := .error e
  ListObjectsV2 _ := .error e

/-! ## Concrete inputs -/

/-- A backup handle on bucket "bucket" under the path "srv/base/". -/
def exampleBackup (svc : S3API) : Backup :=
  { Prefix := { Svc := svc, Bucket := "bucket".toList, Server := "srv".toList },
    Path := "srv/base/".toList,
    Name := "20230601".toList,
    Js := "srv/base/20230601_backup_stop_sentinel.json".toList }

/-- An archive handle on bucket "bucket". -/
def exampleArchive (svc : S3API) : Walg.Archive :=
  { Prefix := { Svc := svc, Bucket := "bucket".toList, Server := "srv".toList },
    Archive := "srv/wal_005/000000010000000000000002.lzo".toList }

/-- The listing of the example scenario: three backups, last modified on
1 January, 1 June and 1 March 2023 (seconds since 1970, UTC). -/
def exampleListing : List Object :=
  [ { Key := "srv/base/20230101_backupA".toList, LastModified := 1672531200 },
    { Key := "srv/base/20230601_backupB".toList, LastModified := 1685577600 },
    { Key := "srv/base/20230301_backupC".toList, LastModified := 1677628800 } ]

/-- A listing with a key of two pieces only. -/
def malformedListing : List Object :=
  [ { Key := "srv/base/base_0001_backup_stop_sentinel.json".toList, LastModified := 100 },
    { Key := "srv/stray".toList, LastModified := 200 } ]

/-- The error of a store that refuses the request for lack of permission. -/
def accessDenied : GoError := .awserr "AccessDenied".toList "Access Denied".toList

/-- The error of a connection that timed out, which is no `awserr.Error`. -/
def timedOut : GoError := .plain "dial tcp: i/o timeout".toList

/-- A store that hands out two entries per listing response and holds three
partitions of the backup "20230601", the sentinel of that backup and one object
of another backup. -/
def pagedStore : Store :=
  { objects :=
      [ { Key := "srv/base/20230601/tar_partitions/part_1.tar.lzo".toList,
          LastModified := 10, Body := [1] },
        { Key := "srv/base/20230601/tar_partitions/part_2.tar.lzo".toList,
          LastModified := 11, Body := [2] },
        { Key := "srv/base/20230601/tar_partitions/part_3.tar.lzo".toList,
          LastModified := 12, Body := [3] },
        { Key := "srv/base/20230601_backup_stop_sentinel.json".toList,
          LastModified := 13, Body := [5, 6] },
        { Key := "srv/base/20230701/tar_partitions/part_1.tar.lzo".toList,
          LastModified := 14, Body := [4] } ],
    maxKeys := 2 }

/-- A reader for a key the paged store does not hold. -/
def missingReader : S3ReaderMaker :=
  { Backup := exampleBackup pagedStore.service,
    Key := "srv/base/20230601/tar_partitions/part_9.tar.lzo".toList,
    FileFormat := "lzo".toList }

/-- A reader for a key the paged store holds. -/
def presentReader : S3ReaderMaker :=
  { Backup := exampleBackup pagedStore.service,
    Key := "srv/base/20230601/tar_partitions/part_2.tar.lzo".toList,
    FileFormat := "lzo".toList }

/-! ## Facts about the string routines -/

theorem HasPrefix_iff (s sep : GoString) : HasPrefix s sep = true ↔ sep <+: s := by
  induction s generalizing sep with
  | nil => cases sep <;> simp [HasPrefix]
  | cons c cs ih =>
    cases sep with
    | nil => simp [HasPrefix]
    | cons d ds =>
      simp only [HasPrefix, Bool.and_eq_true, beq_iff_eq, ih, List.cons_prefix_cons]
      constructor
      · rintro ⟨h1, h2⟩; exact ⟨h1.symm, h2⟩
      · rintro ⟨h1, h2⟩; exact ⟨h1.symm, h2⟩

theorem HasPrefix_nil_left {sep : GoString} (hsep : sep ≠ []) : HasPrefix [] sep = false := by
  cases sep with
  | nil => exact absurd rfl hsep
  | cons d ds => rfl

theorem Index_nil {sep : GoString} (hsep : sep ≠ []) : Index [] sep = none := by
  simp [Index, HasPrefix_nil_left hsep]

/-- A found position leaves room for the whole separator. -/
theorem Index_bound {sep : GoString} :
    ∀ (s : GoString) (m : Nat), Index s sep = some m → m + sep.length ≤ s.length := by
  intro s
  induction s with
  | nil =>
    intro m h
    simp only [Index] at h
    split at h
    · rename_i hp
      have := (HasPrefix_iff [] sep).1 hp
      have hnil : sep = [] := List.prefix_nil.1 this
      cases h
      simp [hnil]
    · cases h
  | cons c cs ih =>
    intro m h
    simp only [Index] at h
    split at h
    · rename_i hp
      cases h
      have := ((HasPrefix_iff (c :: cs) sep).1 hp).length_le
      simpa using this
    · cases hcs : Index cs sep with
      | none => simp [hcs] at h
      | some k =>
        simp only [hcs, Option.some.injEq] at h
        subst h
        have := ih k hcs
        simp only [List.length_cons]
        omega

/-- The fuel of `countLoop` does not matter once it reaches the length of the
text. -/
theorem countLoop_fuel {sep : GoString} (hsep : sep ≠ []) :
    ∀ (f g : Nat) (s : GoString), s.length ≤ f → s.length ≤ g →
      countLoop sep f s = countLoop sep g s := by
  have hlen : 0 < sep.length := List.length_pos.2 hsep
  intro f
  induction f with
  | zero =>
    intro g s hf _
    have hs : s = [] := List.length_eq_zero.1 (Nat.le_zero.1 hf)
    subst hs
    cases g with
    | zero => rfl
    | succ g => simp [countLoop, Index_nil hsep]
  | succ f ih =>
    intro g s hf hg
    cases g with
    | zero =>
      have hs : s = [] := List.length_eq_zero.1 (Nat.le_zero.1 hg)
      subst hs
      simp [countLoop, Index_nil hsep]
    | succ g =>
      simp only [countLoop]
      cases hi : Index s sep with
      | none => rfl
      | some i =>
        have hb := Index_bound s i hi
        have hd : (s.drop (i + sep.length)).length ≤ s.length - 1 := by
          simp only [List.length_drop]; omega
        simp only
        rw [ih g (s.drop (i + sep.length)) (by omega) (by omega)]

theorem countLoop_le {sep : GoString} (hsep : sep ≠ []) :
    ∀ (f : Nat) (s : GoString), countLoop sep f s ≤ s.length := by
  have hlen : 0 < sep.length := List.length_pos.2 hsep
  intro f
  induction f with
  | zero => intro s; simp [countLoop]
  | succ f ih =>
    intro s
    simp only [countLoop]
    cases hi : Index s sep with
    | none => simp
    | some i =>
      have hb := Index_bound s i hi
      have := ih (s.drop (i + sep.length))
      simp only [List.length_drop] at this
      simp only
      omega

/-- The cut of `n` in `genSplit` never applies to a non-empty separator. -/
theorem Count_le {sep : GoString} (s : GoString) (hsep : sep ≠ []) :
    Count s sep ≤ s.length := by
  simp only [Count, if_neg hsep]
  exact countLoop_le hsep _ _

theorem genSplit_eq {sep : GoString} (s : GoString) (k : Nat) (hsep : sep ≠ []) :
    genSplit s sep k = splitLoop sep k (Count s sep) s := by
  have := Count_le s hsep
  have hn : ¬ Count s sep + 1 > s.length + 1 := by omega
  simp only [genSplit, if_neg hsep, if_neg hn, Nat.add_sub_cancel]

theorem Count_of_Index_none {s sep : GoString} (hsep : sep ≠ [])
    (h : Index s sep = none) : Count s sep = 0 := by
  simp only [Count, if_neg hsep]
  cases hl : s.length with
  | zero => rfl
  | succ n => simp [countLoop, h]

theorem Count_of_Index_some {s sep : GoString} {m : Nat} (hsep : sep ≠ [])
    (h : Index s sep = some m) :
    Count s sep = Count (s.drop (m + sep.length)) sep + 1 := by
  have hlen : 0 < sep.length := List.length_pos.2 hsep
  have hb := Index_bound s m h
  simp only [Count, if_neg hsep]
  cases hl : s.length with
  | zero => omega
  | succ n =>
    simp only [countLoop, h]
    rw [countLoop_fuel hsep n (s.drop (m + sep.length)).length (s.drop (m + sep.length))
      (by simp only [List.length_drop]; omega) (Nat.le_refl _)]

/-- First equation of the split: no occurrence, one piece. -/
theorem genSplit_of_Index_none {s sep : GoString} (k : Nat) (hsep : sep ≠ [])
    (h : Index s sep = none) : genSplit s sep k = [s] := by
  simp only [genSplit_eq s k hsep, Count_of_Index_none hsep h, splitLoop]

/-- Second equation of the split: the piece up to the first occurrence (with
`k` characters of the separator kept), then the split of what follows it. -/
theorem genSplit_of_Index_some {s sep : GoString} {m : Nat} (k : Nat) (hsep : sep ≠ [])
    (h : Index s sep = some m) :
    genSplit s sep k = s.take (m + k) :: genSplit (s.drop (m + sep.length)) sep k := by
  simp only [genSplit_eq _ k hsep, Count_of_Index_some hsep h, splitLoop, h]

/-- A split by a non-empty separator has at least one piece. -/
theorem genSplit_ne_nil (s : GoString) {sep : GoString} (k : Nat) (hsep : sep ≠ []) :
    genSplit s sep k ≠ [] := by
  cases h : Index s sep with
  | none => simp [genSplit_of_Index_none k hsep h]
  | some m => simp [genSplit_of_Index_some k hsep h]

/-! ### Splitting at a single character -/

theorem Index_char_head (c : Char) (t : GoString) : Index (c :: t) [c] = some 0 := by
  simp [Index, HasPrefix]

/-- A stretch without the character only shifts the position found. -/
theorem Index_char_append {c : Char} :
    ∀ (a b : GoString), c ∉ a → Index (a ++ b) [c] = (Index b [c]).map (· + a.length) := by
  intro a
  induction a with
  | nil => intro b _; simp
  | cons x xs ih =>
    intro b hx
    have hxc : x ≠ c := fun h => hx (by simp [h])
    have hxs : c ∉ xs := fun h => hx (List.mem_cons_of_mem _ h)
    have hp : HasPrefix (x :: (xs ++ b)) [c] = false := by simp [HasPrefix, hxc]
    rw [List.cons_append, Index, if_neg (by simp [hp]), ih b hxs]
    cases Index b [c] with
    | none => rfl
    | some m => simp [Nat.add_assoc]

theorem Index_char_of_not_mem {c : Char} {s : GoString} (h : c ∉ s) : Index s [c] = none := by
  have := Index_char_append s [] h
  simpa [Index_nil] using this

theorem Index_char_first {c : Char} (a t : GoString) (h : c ∉ a) :
    Index (a ++ c :: t) [c] = some a.length := by
  rw [Index_char_append a (c :: t) h, Index_char_head]
  simp

/-- Every text either lacks the character or splits at its first occurrence. -/
theorem first_occurrence (c : Char) :
    ∀ s : GoString, c ∉ s ∨ ∃ a t, s = a ++ c :: t ∧ c ∉ a := by
  intro s
  induction s with
  | nil => left; simp
  | cons x xs ih =>
    by_cases hx : x = c
    · right; exact ⟨[], xs, by simp [hx], by simp⟩
    · rcases ih with h | ⟨a, t, rfl, ha⟩
      · left
        intro hm
        rcases List.mem_cons.1 hm with h1 | h1
        · exact hx h1.symm
        · exact h h1
      · right
        refine ⟨x :: a, t, by simp, ?_⟩
        intro hm
        rcases List.mem_cons.1 hm with h1 | h1
        · exact hx h1.symm
        · exact ha h1

theorem genSplit_char_of_not_mem {c : Char} {s : GoString} (k : Nat) (h : c ∉ s) :
    genSplit s [c] k = [s] :=
  genSplit_of_Index_none k (by simp) (Index_char_of_not_mem h)

theorem genSplit_char_first {c : Char} (a t : GoString) (k : Nat) (h : c ∉ a) :
    genSplit (a ++ c :: t) [c] k = (a ++ (c :: t).take k) :: genSplit t [c] k := by
  rw [genSplit_of_Index_some k (by simp) (Index_char_first a t h)]
  congr 1
  · rw [List.take_append]
  · simp

/-- The pieces of `SplitAfter(s, "/")`: one more than there are "/" in `s`. -/
theorem SplitAfter_slash_length (s : GoString) :
    (SplitAfter s slash).length = s.count '/' + 1 := by
  have key : ∀ (n : Nat) (s : GoString), s.length ≤ n →
      (genSplit s ['/'] 1).length = s.count '/' + 1 := by
    intro n
    induction n with
    | zero =>
      intro s hs
      have : s = [] := List.length_eq_zero.1 (Nat.le_zero.1 hs)
      subst this
      rw [genSplit_char_of_not_mem 1 (by simp)]
      simp
    | succ n ih =>
      intro s hs
      rcases first_occurrence '/' s with h | ⟨a, t, rfl, ha⟩
      · rw [genSplit_char_of_not_mem 1 h, List.count_eq_zero_of_not_mem h]
        simp
      · rw [genSplit_char_first a t 1 ha]
        have ht : t.length ≤ n := by
          simp only [List.length_append, List.length_cons] at hs
          omega
        simp only [List.length_cons, ih t ht, List.count_append, List.count_cons_self,
          List.count_eq_zero_of_not_mem ha]
        omega
  exact key s.length s (Nat.le_refl _)

/-! ### Splitting at the "_backup" marker -/

/-- No occurrence at all, no position found. -/
theorem Index_of_absent {sep : GoString} :
    ∀ s : GoString, ¬ sep <:+: s → Index s sep = none := by
  intro s
  induction s with
  | nil =>
    intro h
    simp only [Index]
    split
    · rename_i hp
      exact absurd ((HasPrefix_iff [] sep).1 hp).isInfix h
    · rfl
  | cons c cs ih =>
    intro h
    have hp : ¬ HasPrefix (c :: cs) sep = true :=
      fun hp => h ((HasPrefix_iff _ _).1 hp).isInfix
    have hcs : ¬ sep <:+: cs := fun hi => h (hi.trans (List.suffix_cons c cs).isInfix)
    rw [Index, if_neg hp, ih hcs]

/-- The marker does not overlap itself: an occurrence that starts inside a
non-empty text `suf` placed before a marker lies wholly inside `suf`. -/
theorem marker_overlap (suf rest : GoString) (hne : suf ≠ [])
    (h : HasPrefix (suf ++ backupMarker ++ rest) backupMarker = true) :
    HasPrefix suf backupMarker = true := by
  rcases suf with _ | ⟨c0, _ | ⟨c1, _ | ⟨c2, _ | ⟨c3, _ | ⟨c4, _ | ⟨c5, _ | ⟨c6, tl⟩⟩⟩⟩⟩⟩⟩
  · exact absurd rfl hne
  all_goals simp [HasPrefix, backupMarker] at h ⊢
  all_goals simp_all

/-- In `name ++ "_backup" ++ rest` the first marker is the one written after
`name`, when `name` has none. -/
theorem Index_marker :
    ∀ (name rest : GoString), ¬ backupMarker <:+: name →
      Index (name ++ backupMarker ++ rest) backupMarker = some name.length := by
  intro name
  induction name with
  | nil =>
    intro rest _
    simp [Index, HasPrefix, backupMarker]
  | cons c cs ih =>
    intro rest h
    have hp : ¬ HasPrefix (c :: cs ++ backupMarker ++ rest) backupMarker = true := by
      intro hp
      have := marker_overlap (c :: cs) rest (by simp) hp
      exact h ((HasPrefix_iff _ _).1 this).isInfix
    have hcs : ¬ backupMarker <:+: cs :=
      fun hi => h (hi.trans (List.suffix_cons c cs).isInfix)
    have hstep : Index (c :: cs ++ backupMarker ++ rest) backupMarker
        = match Index (cs ++ backupMarker ++ rest) backupMarker with
          | some m => some (m + 1)
          | none => none := by
      simp only [List.cons_append] at hp ⊢
      rw [Index, if_neg hp]
    rw [hstep, ih rest hcs]
    rfl

/-- The third piece of `SplitAfter` for a key of the backup layout: it begins
with `name ++ "_backup"`. -/
theorem SplitAfter_layout (s p name suffix : GoString)
    (hs : '/' ∉ s) (hp : '/' ∉ p) (hn : '/' ∉ name) :
    ∃ suffix' tl, SplitAfter (s ++ slash ++ p ++ slash ++ name ++ backupMarker ++ suffix) slash
      = (s ++ slash) :: (p ++ slash) :: (name ++ backupMarker ++ suffix') :: tl := by
  have hnm : '/' ∉ name ++ backupMarker := by
    simp [backupMarker, hn]
  have hkey : s ++ slash ++ p ++ slash ++ name ++ backupMarker ++ suffix
      = s ++ '/' :: (p ++ '/' :: (name ++ backupMarker ++ suffix)) := by
    simp [slash]
  have hthird : ∃ suffix' tl, genSplit (name ++ backupMarker ++ suffix) ['/'] 1
      = (name ++ backupMarker ++ suffix') :: tl := by
    rcases first_occurrence '/' suffix with h | ⟨a, t, rfl, ha⟩
    · refine ⟨suffix, [], ?_⟩
      apply genSplit_char_of_not_mem
      intro hm
      rcases List.mem_append.1 hm with h1 | h1
      · exact hnm h1
      · exact h h1
    · refine ⟨a ++ ['/'], genSplit t ['/'] 1, ?_⟩
      have hpre : '/' ∉ name ++ backupMarker ++ a := by
        intro hm
        rcases List.mem_append.1 hm with h1 | h1
        · exact hnm h1
        · exact ha h1
      have := genSplit_char_first (name ++ backupMarker ++ a) t 1 hpre
      simp only [List.append_assoc, List.take_succ_cons, List.take_zero] at this ⊢
      exact this
  obtain ⟨suffix', tl, h3⟩ := hthird
  refine ⟨suffix', tl, ?_⟩
  rw [hkey]
  simp only [SplitAfter, slash, List.length_singleton]
  rw [genSplit_char_first s _ 1 hs, genSplit_char_first p _ 1 hp, h3]
  simp

/-! ### The two outcomes of `stripNameBackup` -/

theorem index_of_getElem? {α : Type} {a : List α} {i : Nat} {v : α} (h : a[i]? = some v) :
    index a i = .ok v := by
  simp [index, h]

theorem index_of_length_le {α : Type} {a : List α} {i : Nat} (h : a.length ≤ i) :
    index a i = .error (.indexOutOfRange i a.length) := by
  simp [index, List.getElem?_eq_none h]

/-- Fewer than three pieces: the index expression `all[2]` panics. -/
theorem stripNameBackup_short {key : GoString} (h : (SplitAfter key slash).length < 3) :
    stripNameBackup key = .error (.indexOutOfRange 2 (SplitAfter key slash).length) := by
  have h2 : (SplitAfter key slash).length ≤ 2 := by omega
  simp only [stripNameBackup, index_of_length_le h2]
  rfl

/-- Three pieces or more: the result is the first piece of the marker split of
the third one. -/
theorem stripNameBackup_long {key third : GoString}
    (h : (SplitAfter key slash)[2]? = some third) :
    ∃ name rest, Split third backupMarker = name :: rest ∧ stripNameBackup key = .ok name := by
  have hne : Split third backupMarker ≠ [] :=
    genSplit_ne_nil third 0 (by simp [backupMarker])
  cases hs : Split third backupMarker with
  | nil => exact absurd hs hne
  | cons name rest =>
    refine ⟨name, rest, rfl, ?_⟩
    simp only [stripNameBackup, index_of_getElem? h]
    show (index (Split third backupMarker) 0 >>= fun name => pure name) = _
    rw [hs, index_of_getElem? (List.getElem?_cons_zero)]
    rfl

/-! ## Facts about `sort.Sort` -/

theorem insertLeft_perm {α : Type} (less : α → α → Bool) (x : α) :
    ∀ l : List α, (insertLeft less x l).Perm (x :: l) := by
  intro l
  induction l with
  | nil => exact List.Perm.refl _
  | cons y ys ih =>
    simp only [insertLeft]
    split
    · exact ((ih.cons y).trans (List.Perm.swap x y ys))
    · exact List.Perm.refl _

theorem foldl_insertLeft_perm {α : Type} (less : α → α → Bool) :
    ∀ (data sorted : List α),
      (data.foldl (fun sorted x => insertLeft less x sorted) sorted).Perm (data ++ sorted) := by
  intro data
  induction data with
  | nil => intro sorted; exact List.Perm.refl _
  | cons x xs ih =>
    intro sorted
    simp only [List.foldl_cons, List.cons_append]
    refine (ih (insertLeft less x sorted)).trans ?_
    refine (List.Perm.append_left xs (insertLeft_perm less x sorted)).trans ?_
    exact List.perm_middle

/-- Sorting only rearranges the entries, whatever `Less` is. -/
theorem sortSort_perm {α : Type} (less : α → α → Bool) (data : List α) :
    (sortSort less data).Perm data := by
  unfold sortSort
  refine (List.reverse_perm _).trans ?_
  simpa using foldl_insertLeft_perm less data []

theorem insertLeft_sorted (x : BackupTime) :
    ∀ l : List BackupTime, l.Pairwise (fun a c => c.Time ≤ a.Time) →
      (insertLeft TimeSlice.Less x l).Pairwise (fun a c => c.Time ≤ a.Time) := by
  intro l
  induction l with
  | nil => intro _; simp [insertLeft]
  | cons y ys ih =>
    intro h
    have hy := (List.pairwise_cons.1 h).1
    have hys := (List.pairwise_cons.1 h).2
    simp only [insertLeft]
    split
    · rename_i hlt
      have hlt' : x.Time < y.Time := by simpa [TimeSlice.Less] using hlt
      refine List.pairwise_cons.2 ⟨?_, ih hys⟩
      intro z hz
      rcases List.mem_cons.1 ((insertLeft_perm TimeSlice.Less x ys).subset hz) with h1 | h1
      · subst h1; exact le_of_lt hlt'
      · exact hy z h1
    · rename_i hlt
      have hle : y.Time ≤ x.Time := by
        have : ¬ x.Time < y.Time := by simpa [TimeSlice.Less] using hlt
        exact not_lt.1 this
      refine List.pairwise_cons.2 ⟨?_, h⟩
      intro z hz
      rcases List.mem_cons.1 hz with h1 | h1
      · subst h1; exact hle
      · exact le_trans (hy z h1) hle

theorem foldl_insertLeft_sorted :
    ∀ (data sorted : List BackupTime), sorted.Pairwise (fun a c => c.Time ≤ a.Time) →
      (data.foldl (fun sorted x => insertLeft TimeSlice.Less x sorted) sorted).Pairwise
        (fun a c => c.Time ≤ a.Time) := by
  intro data
  induction data with
  | nil => intro sorted h; exact h
  | cons x xs ih =>
    intro sorted h
    exact ih _ (insertLeft_sorted x sorted h)

/-- With the `Less` of `TimeSlice`, the sort puts the entries in ascending order
of time. -/
theorem sortSort_ascending (data : List BackupTime) :
    (sortSort TimeSlice.Less data).Pairwise (fun a c => a.Time ≤ c.Time) := by
  unfold sortSort
  rw [List.pairwise_reverse]
  exact foldl_insertLeft_sorted data [] List.Pairwise.nil

/-! ## Facts about the loop of `GetLatest` -/

theorem sortTimesLoop_cons_ok {ob : Object} {name : GoString} (rest : List Object)
    (h : stripNameBackup ob.Key = .ok name) :
    sortTimesLoop (ob :: rest)
      = (sortTimesLoop rest).map (fun tail => { Name := name, Time := ob.LastModified } :: tail) := by
  simp only [sortTimesLoop, h]
  cases sortTimesLoop rest <;> rfl

theorem sortTimesLoop_cons_error {ob : Object} {p : Panic} (rest : List Object)
    (h : stripNameBackup ob.Key = .error p) :
    sortTimesLoop (ob :: rest) = .error p := by
  simp only [sortTimesLoop, h]
  rfl

/-- A listing of well-formed keys is turned into one entry per key. -/
theorem sortTimesLoop_ok :
    ∀ cs : List Object, (∀ ob ∈ cs, 3 ≤ (SplitAfter ob.Key slash).length) →
      ∃ l, sortTimesLoop cs = .ok l ∧ l.length = cs.length ∧
        (∀ bt ∈ l, ∃ ob ∈ cs, stripNameBackup ob.Key = .ok bt.Name ∧ bt.Time = ob.LastModified) ∧
        (∀ ob ∈ cs, ∃ bt ∈ l, stripNameBackup ob.Key = .ok bt.Name ∧ bt.Time = ob.LastModified) := by
  intro cs
  induction cs with
  | nil => intro _; exact ⟨[], rfl, rfl, by simp, by simp⟩
  | cons ob rest ih =>
    intro h
    obtain ⟨l, hl, hlen, h1, h2⟩ := ih (fun o ho => h o (List.mem_cons_of_mem _ ho))
    have h3 : 3 ≤ (SplitAfter ob.Key slash).length := h ob (List.mem_cons_self _ _)
    obtain ⟨third, hthird⟩ : ∃ third, (SplitAfter ob.Key slash)[2]? = some third :=
      ⟨_, List.getElem?_eq_getElem (by omega)⟩
    obtain ⟨name, _, _, hname⟩ := stripNameBackup_long hthird
    refine ⟨{ Name := name, Time := ob.LastModified } :: l, ?_, by simp [hlen], ?_, ?_⟩
    · rw [sortTimesLoop_cons_ok rest hname, hl]; rfl
    · intro bt hbt
      rcases List.mem_cons.1 hbt with hb | hb
      · subst hb; exact ⟨ob, List.mem_cons_self _ _, hname, rfl⟩
      · obtain ⟨o, ho, hh⟩ := h1 bt hb
        exact ⟨o, List.mem_cons_of_mem _ ho, hh⟩
    · intro o ho
      rcases List.mem_cons.1 ho with hb | hb
      · subst hb; exact ⟨_, List.mem_cons_self _ _, hname, rfl⟩
      · obtain ⟨bt, hbt, hh⟩ := h2 o hb
        exact ⟨bt, List.mem_cons_of_mem _ hbt, hh⟩

/-- One key with fewer than three pieces makes the loop panic. -/
theorem sortTimesLoop_panic :
    ∀ cs : List Object, (∃ ob ∈ cs, (SplitAfter ob.Key slash).length < 3) →
      ∃ p, sortTimesLoop cs = .error p := by
  intro cs
  induction cs with
  | nil => rintro ⟨ob, hob, _⟩; cases hob
  | cons ob rest ih =>
    rintro ⟨bad, hbad, hshort⟩
    cases hs : stripNameBackup ob.Key with
    | error p => exact ⟨p, sortTimesLoop_cons_error rest hs⟩
    | ok name =>
      rcases List.mem_cons.1 hbad with hb | hb
      · subst hb
        rw [stripNameBackup_short hshort] at hs
        cases hs
      · obtain ⟨p, hp⟩ := ih ⟨bad, hb, hshort⟩
        exact ⟨p, by rw [sortTimesLoop_cons_ok rest hs, hp]; rfl⟩

theorem GetLatestWith_of_listing (less : BackupTime → BackupTime → Bool) (b : Backup)
    {out : ListObjectsV2Output} (h : b.Prefix.Svc.ListObjectsV2 b.GetLatestInput = .ok out) :
    b.GetLatestWith less
      = (sortTimesLoop out.Contents >>= fun sortTimes =>
          index (sortSort less sortTimes) 0 >>= fun first => pure first.Name) := by
  simp only [Backup.GetLatestWith, h]


/-- What `GetLatest` returns on a non-empty listing of well-formed keys: the
name of the entry the sort has put first. -/
theorem GetLatestWith_first (less : BackupTime → BackupTime → Bool) (b : Backup)
    {out : ListObjectsV2Output} (h : b.Prefix.Svc.ListObjectsV2 b.GetLatestInput = .ok out)
    (hne : out.Contents ≠ [])
    (hwf : ∀ ob ∈ out.Contents, 3 ≤ (SplitAfter ob.Key slash).length) :
    ∃ l first rest, sortTimesLoop out.Contents = .ok l ∧ sortSort less l = first :: rest ∧
      b.GetLatestWith less = .ok first.Name ∧
      (∀ bt ∈ l, ∃ ob ∈ out.Contents,
        stripNameBackup ob.Key = .ok bt.Name ∧ bt.Time = ob.LastModified) ∧
      (∀ ob ∈ out.Contents, ∃ bt ∈ l,
        stripNameBackup ob.Key = .ok bt.Name ∧ bt.Time = ob.LastModified) := by
  obtain ⟨l, hl, hlen, h1, h2⟩ := sortTimesLoop_ok out.Contents hwf
  have hperm := sortSort_perm less l
  have hpos : 0 < (sortSort less l).length := by
    rw [hperm.length_eq, hlen]
    exact List.length_pos.2 hne
  cases hs : sortSort less l with
  | nil => rw [hs] at hpos; exact absurd hpos (Nat.lt_irrefl 0)
  | cons first rest =>
    refine ⟨l, first, rest, hl, hs, ?_, h1, h2⟩
    rw [GetLatestWith_of_listing less b h, hl]
    show (index (sortSort less l) 0 >>= fun first => pure first.Name) = _
    rw [hs, index_of_getElem? (List.getElem?_cons_zero)]
    rfl

/-- On a non-empty listing of well-formed keys `GetLatest` returns the stripped
name of a listed key. -/
theorem GetLatestWith_listed (less : BackupTime → BackupTime → Bool) (b : Backup)
    (out : ListObjectsV2Output) (h : b.Prefix.Svc.ListObjectsV2 b.GetLatestInput = .ok out)
    (hne : out.Contents ≠ [])
    (hwf : ∀ ob ∈ out.Contents, 3 ≤ (SplitAfter ob.Key slash).length) :
    ∃ ob ∈ out.Contents, ∃ name,
      stripNameBackup ob.Key = .ok name ∧ b.GetLatestWith less = .ok name := by
  obtain ⟨l, first, rest, _, hs, hres, h1, _⟩ := GetLatestWith_first less b h hne hwf
  have hmem : first ∈ l :=
    (sortSort_perm less l).subset (by rw [hs]; exact List.mem_cons_self _ _)
  obtain ⟨ob, hob, hname, _⟩ := h1 first hmem
  exact ⟨ob, hob, first.Name, hname, hres⟩

/-- With the ascending `Less` of `TimeSlice`, `GetLatest` returns the name of an
entry whose timestamp is the least of the listing. -/
theorem GetLatest_earliest (b : Backup)
    {out : ListObjectsV2Output} (h : b.Prefix.Svc.ListObjectsV2 b.GetLatestInput = .ok out)
    (hne : out.Contents ≠ [])
    (hwf : ∀ ob ∈ out.Contents, 3 ≤ (SplitAfter ob.Key slash).length) :
    ∃ ob ∈ out.Contents, (∀ other ∈ out.Contents, ob.LastModified ≤ other.LastModified) ∧
      ∃ name, stripNameBackup ob.Key = .ok name ∧ b.GetLatest = .ok name := by
  obtain ⟨l, first, rest, _, hs, hres, h1, h2⟩ :=
    GetLatestWith_first TimeSlice.Less b h hne hwf
  have hperm := sortSort_perm TimeSlice.Less l
  have hmem : first ∈ l := hperm.subset (by rw [hs]; exact List.mem_cons_self _ _)
  have hasc := sortSort_ascending l
  rw [hs] at hasc
  have hmin : ∀ bt ∈ l, first.Time ≤ bt.Time := by
    intro bt hbt
    have : bt ∈ first :: rest := by rw [← hs]; exact hperm.symm.subset hbt
    rcases List.mem_cons.1 this with h0 | h0
    · rw [h0]
    · exact (List.pairwise_cons.1 hasc).1 bt h0
  obtain ⟨ob, hob, hname, htime⟩ := h1 first hmem
  refine ⟨ob, hob, ?_, first.Name, hname, hres⟩
  intro other hother
  obtain ⟨bt, hbt, _, hbtt⟩ := h2 other hother
  rw [← htime, ← hbtt]
  exact hmin bt hbt

theorem GetKeys_of_listing (b : Backup) {out : ListObjectsV2Output}
    (h : b.Prefix.Svc.ListObjectsV2 b.GetKeysInput = .ok out) :
    b.GetKeys = .ok (out.Contents.map (fun ob => ob.Key)) := by
  simp only [Backup.GetKeys, h]

theorem mem_matching (st : Store) (pre k : GoString) :
    k ∈ (st.matching pre).map (fun ob => ob.Key) ↔ (pre <+: k ∧ ∃ o ∈ st.objects, o.Key = k) := by
  simp only [Store.matching, List.mem_map, List.mem_filter, StoredObject.entry]
  constructor
  · rintro ⟨ob, ⟨o, ⟨ho, hp⟩, rfl⟩, rfl⟩
    exact ⟨(HasPrefix_iff _ _).1 hp, o, ho, rfl⟩
  · rintro ⟨hp, o, ho, rfl⟩
    exact ⟨_, ⟨o, ⟨ho, (HasPrefix_iff _ _).2 hp⟩, rfl⟩, rfl⟩

/-! ## The separators are the texts of the source -/

theorem slash_eq : slash = "/".toList := rfl

theorem backupMarker_eq : backupMarker = "_backup".toList := rfl

theorem notFound_eq : notFound = "NotFound".toList := rfl

theorem tarPartitions_eq : tarPartitions = "/tar_partitions".toList := rfl

/-! ## The claims -/

/-- Claim C1: for a key `s + "/" + p + "/" + name + "_backup" + suffix` in which
`s`, `p` and `name` hold no "/" and `name` does not contain "_backup", whatever
the suffix is, `stripNameBackup` returns exactly `name`: building a key of this
layout from a name and parsing it gives the name back. -/
theorem stripNameBackup_layout (s p name suffix : GoString)
    (hs : '/' ∉ s) (hp : '/' ∉ p) (hn : '/' ∉ name) (hm : ¬ backupMarker <:+: name) :
    stripNameBackup (s ++ slash ++ p ++ slash ++ name ++ backupMarker ++ suffix) = .ok name := by
  obtain ⟨suffix', tl, hall⟩ := SplitAfter_layout s p name suffix hs hp hn
  have hthird : (SplitAfter (s ++ slash ++ p ++ slash ++ name ++ backupMarker ++ suffix) slash)[2]?
      = some (name ++ backupMarker ++ suffix') := by
    rw [hall]; simp
  obtain ⟨first, rest, hsplit, hres⟩ := stripNameBackup_long hthird
  have hidx := Index_marker name suffix' hm
  have h2 := genSplit_of_Index_some 0 (by simp [backupMarker]) hidx
  rw [Split, h2] at hsplit
  have hfirst : first = name := by
    have := (List.cons.inj hsplit).1
    rw [← this]
    simp
  rw [hres, hfirst]

/-- Claim C1 at the key "srv/base/20230601_backupB/x_backup", whose suffix holds
a "/" and a second marker. -/
theorem stripNameBackup_layout_witness :
    stripNameBackup ("srv".toList ++ slash ++ "base".toList ++ slash ++ "20230601".toList
      ++ backupMarker ++ "B/x_backup".toList) = .ok "20230601".toList :=
  stripNameBackup_layout "srv".toList "base".toList "20230601".toList "B/x_backup".toList
    (by decide) (by decide) (by decide) (by decide)

/-- Claim C3 is false at the empty listing: `GetLatest` gives no "no backups
found" outcome, its index expression `sortTimes[0]` is out of range. -/
theorem GetLatest_empty_listing_example :
    (exampleBackup (listingService [])).GetLatest = .error (.indexOutOfRange 0 0) := by
  decide

/-- Claim C3, amended: when the listing succeeds and has no entries,
`GetLatest` returns no name and no "no backups found" value; the index
expression `sortTimes[0]` on the empty slice is out of range and the call
panics, whatever the order of `TimeSlice` is. -/
theorem GetLatest_empty_listing (less : BackupTime → BackupTime → Bool) (b : Backup)
    (out : ListObjectsV2Output) (h : b.Prefix.Svc.ListObjectsV2 b.GetLatestInput = .ok out)
    (hempty : out.Contents = []) :
    b.GetLatestWith less = .error (.indexOutOfRange 0 0) := by
  rw [GetLatestWith_of_listing less b h, hempty]
  rfl

/-- Claim C3, amended, at the empty listing with the latest-first order. -/
theorem GetLatest_empty_listing_witness :
    (exampleBackup (listingService [])).GetLatestWith latestFirst
      = .error (.indexOutOfRange 0 0) :=
  GetLatest_empty_listing latestFirst (exampleBackup (listingService []))
    { Contents := [], IsTruncated := false, NextContinuationToken := none } rfl rfl

/-- Claim C4 is false when the probe is refused or times out: both
`CheckExistence` return `true`, there is no third outcome. -/
theorem CheckExistence_other_error_example :
    (exampleBackup (failingService accessDenied)).CheckExistence = true ∧
    (exampleArchive (failingService accessDenied)).CheckExistence = true ∧
    (exampleBackup (failingService timedOut)).CheckExistence = true ∧
    (exampleArchive (failingService timedOut)).CheckExistence = true := by
  decide

/-- Claim C4, amended: for `Backup.CheckExistence` and `Archive.CheckExistence`
the result is `false` when the store reports "NotFound", `true` when the probe
succeeds, and also `true` when the store reports any other error; the result is
a `bool` and has no third value. -/
theorem CheckExistence_outcomes (b : Backup) (a : Walg.Archive) :
    (∀ msg, b.Prefix.Svc.HeadObject b.CheckExistenceInput = .error (.awserr notFound msg) →
      b.CheckExistence = false) ∧
    (∀ out, b.Prefix.Svc.HeadObject b.CheckExistenceInput = .ok out →
      b.CheckExistence = true) ∧
    (∀ e, b.Prefix.Svc.HeadObject b.CheckExistenceInput = .error e →
      (∀ msg, e ≠ .awserr notFound msg) → b.CheckExistence = true) ∧
    (∀ msg, a.Prefix.Svc.HeadObject a.CheckExistenceInput = .error (.awserr notFound msg) →
      a.CheckExistence = false) ∧
    (∀ out, a.Prefix.Svc.HeadObject a.CheckExistenceInput = .ok out →
      a.CheckExistence = true) ∧
    (∀ e, a.Prefix.Svc.HeadObject a.CheckExistenceInput = .error e →
      (∀ msg, e ≠ .awserr notFound msg) → a.CheckExistence = true) := by
  refine ⟨?_, ?_, ?_, ?_, ?_, ?_⟩
  · intro msg h; simp [Backup.CheckExistence, h]
  · intro out h; simp [Backup.CheckExistence, h]
  · intro e h hne
    cases e with
    | awserr code msg =>
      have : code ≠ notFound := fun hc => hne msg (by rw [hc])
      simp [Backup.CheckExistence, h, this]
    | plain msg => simp [Backup.CheckExistence, h]
  · intro msg h; simp [Archive.CheckExistence, h]
  · intro out h; simp [Archive.CheckExistence, h]
  · intro e h hne
    cases e with
    | awserr code msg =>
      have : code ≠ notFound := fun hc => hne msg (by rw [hc])
      simp [Archive.CheckExistence, h, this]
    | plain msg => simp [Archive.CheckExistence, h]

/-- Claim C4, amended, at a service that holds no object (the probe reports
"NotFound"), at a store that holds the sentinel (the probe succeeds), and at a
service that refuses the probe. -/
theorem CheckExistence_outcomes_witness :
    (exampleBackup (listingService [])).CheckExistence = false ∧
    (exampleBackup pagedStore.service).CheckExistence = true ∧
    (exampleArchive (failingService accessDenied)).CheckExistence = true :=
  ⟨(CheckExistence_outcomes (exampleBackup (listingService []))
      (exampleArchive (failingService accessDenied))).1 [] rfl,
   (CheckExistence_outcomes (exampleBackup pagedStore.service)
      (exampleArchive (failingService accessDenied))).2.1 { ContentLength := 2 } (by decide),
   (CheckExistence_outcomes (exampleBackup (listingService []))
      (exampleArchive (failingService accessDenied))).2.2.2.2.2 accessDenied rfl
      (fun msg h => absurd (GoError.awserr.inj h).1 (by decide))⟩

/-- Claim C5 is false at the paged store: three stored keys begin with
"srv/base/20230601/tar_partitions", the store hands out two per response, and
`GetKeys` returns the two of the first response only. -/
theorem GetKeys_paged_example :
    (exampleBackup pagedStore.service).GetKeys
      = .ok [ "srv/base/20230601/tar_partitions/part_1.tar.lzo".toList,
              "srv/base/20230601/tar_partitions/part_2.tar.lzo".toList ] ∧
    (pagedStore.matching "srv/base/20230601/tar_partitions".toList).map (fun ob => ob.Key)
      = [ "srv/base/20230601/tar_partitions/part_1.tar.lzo".toList,
          "srv/base/20230601/tar_partitions/part_2.tar.lzo".toList,
          "srv/base/20230601/tar_partitions/part_3.tar.lzo".toList ] ∧
    (pagedStore.ListObjectsV2 (exampleBackup pagedStore.service).GetKeysInput).IsTruncated
      = true := by
  decide

/-- Claim C5, amended: `GetKeys` issues one listing request and returns the keys
of that one response, in its order.  Against a store with objects `st.objects`
and page size `st.maxKeys` these are the first `st.maxKeys` stored keys that
begin with `P + N + "/tar_partitions"`: every returned key is a stored key with
this beginning, and when the response is not truncated the returned keys are
exactly the stored keys with this beginning. -/
theorem GetKeys_first_page (st : Store) (b : Backup)
    (h : b.Prefix.Svc.ListObjectsV2 b.GetKeysInput = .ok (st.ListObjectsV2 b.GetKeysInput)) :
    ∃ keys, b.GetKeys = .ok keys ∧
      keys = ((st.matching (b.Path ++ b.Name ++ tarPartitions)).map (fun ob => ob.Key)).take
        st.maxKeys ∧
      (∀ k ∈ keys, (b.Path ++ b.Name ++ tarPartitions) <+: k ∧ ∃ o ∈ st.objects, o.Key = k) ∧
      ((st.ListObjectsV2 b.GetKeysInput).IsTruncated = false →
        ∀ k, k ∈ keys ↔
          ((b.Path ++ b.Name ++ tarPartitions) <+: k ∧ ∃ o ∈ st.objects, o.Key = k)) := by
  have hkeys : ((st.ListObjectsV2 b.GetKeysInput).Contents.map (fun ob => ob.Key))
      = ((st.matching (b.Path ++ b.Name ++ tarPartitions)).map (fun ob => ob.Key)).take
        st.maxKeys := by
    simp [Store.ListObjectsV2, Backup.GetKeysInput, List.map_take]
  refine ⟨_, GetKeys_of_listing b h, hkeys, ?_, ?_⟩
  · intro k hk
    rw [hkeys] at hk
    exact (mem_matching st _ k).1 (List.mem_of_mem_take hk)
  · intro htr k
    have hle : (st.matching (b.Path ++ b.Name ++ tarPartitions)).length ≤ st.maxKeys := by
      simpa [Store.ListObjectsV2, Backup.GetKeysInput] using htr
    rw [hkeys, List.take_of_length_le (by simpa using hle)]
    exact mem_matching st _ k

/-- Claim C5, amended, at the paged store. -/
theorem GetKeys_first_page_witness :
    ∃ keys, (exampleBackup pagedStore.service).GetKeys = .ok keys ∧
      keys = ((pagedStore.matching ((exampleBackup pagedStore.service).Path
        ++ (exampleBackup pagedStore.service).Name ++ tarPartitions)).map
          (fun ob => ob.Key)).take pagedStore.maxKeys := by
  obtain ⟨keys, h1, h2, _⟩ :=
    GetKeys_first_page pagedStore (exampleBackup pagedStore.service) rfl
  exact ⟨keys, h1, h2⟩

/-- Claim C6 is false at a key the store does not hold: `Reader` and
`GetArchive` return no error value, they panic with the error of the store. -/
theorem Reader_missing_key_example :
    missingReader.Reader = .error (.err (.awserr noSuchKey [])) ∧
    (exampleArchive pagedStore.service).GetArchive = .error (.err (.awserr noSuchKey [])) := by
  decide

/-- Claim C6, amended: when `GetObject` fails, `S3ReaderMaker.Reader` and
`Archive.GetArchive` do not return; they panic with the error of the store as
the panic value.  When it succeeds they return the body stream of the
response. -/
theorem Reader_GetArchive_outcomes (s : S3ReaderMaker) (a : Walg.Archive) :
    (∀ e, s.Backup.Prefix.Svc.GetObject s.ReaderInput = .error e →
      s.Reader = .error (.err e)) ∧
    (∀ out, s.Backup.Prefix.Svc.GetObject s.ReaderInput = .ok out →
      s.Reader = .ok out.Body) ∧
    (∀ e, a.Prefix.Svc.GetObject a.GetArchiveInput = .error e →
      a.GetArchive = .error (.err e)) ∧
    (∀ out, a.Prefix.Svc.GetObject a.GetArchiveInput = .ok out →
      a.GetArchive = .ok out.Body) := by
  refine ⟨?_, ?_, ?_, ?_⟩
  · intro e h; simp only [S3ReaderMaker.Reader, h]
  · intro out h; simp only [S3ReaderMaker.Reader, h]
  · intro e h; simp only [Archive.GetArchive, h]
  · intro out h; simp only [Archive.GetArchive, h]

/-- Claim C6, amended, at a key the paged store holds and at a service whose
connection times out. -/
theorem Reader_GetArchive_outcomes_witness :
    presentReader.Reader = .ok [2] ∧
    (exampleArchive (failingService timedOut)).GetArchive = .error (.err timedOut) :=
  ⟨(Reader_GetArchive_outcomes presentReader (exampleArchive (failingService timedOut))).2.1
      { Body := [2] } (by decide),
   (Reader_GetArchive_outcomes presentReader (exampleArchive (failingService timedOut))).2.2.1
      timedOut rfl⟩

/-- Claim C7 is false whatever the order of `TimeSlice` is: on the listing of
the example scenario `GetLatest` never returns "20230601_backupB", since every
name it returns has been cut before "_backup". -/
theorem GetLatest_example_never_unstripped :
    ¬ ∃ less : BackupTime → BackupTime → Bool,
      (exampleBackup (listingService exampleListing)).GetLatestWith less
        = .ok "20230601_backupB".toList := by
  rintro ⟨less, hres⟩
  obtain ⟨ob, hob, name, hname, hget⟩ :=
    GetLatestWith_listed less (exampleBackup (listingService exampleListing))
      { Contents := exampleListing, IsTruncated := false, NextContinuationToken := none }
      rfl (by decide) (by decide)
  rw [hget] at hres
  have hn : name = "20230601_backupB".toList := Except.ok.inj hres
  subst hn
  have hall : ∀ o ∈ exampleListing, stripNameBackup o.Key ≠ .ok "20230601_backupB".toList := by
    decide
  exact hall ob hob hname

/-- Claim C7, amended: on the listing of the example scenario `GetLatest`
returns the name, cut before "_backup", of the entry that `TimeSlice` orders
first: one of "20230101", "20230601" and "20230301", and "20230601" when the
order is latest first. -/
theorem GetLatest_example_scenario :
    (∀ less : BackupTime → BackupTime → Bool,
      (exampleBackup (listingService exampleListing)).GetLatestWith less
          = .ok "20230101".toList ∨
      (exampleBackup (listingService exampleListing)).GetLatestWith less
          = .ok "20230601".toList ∨
      (exampleBackup (listingService exampleListing)).GetLatestWith less
          = .ok "20230301".toList) ∧
    (exampleBackup (listingService exampleListing)).GetLatestWith latestFirst
      = .ok "20230601".toList := by
  refine ⟨?_, by decide⟩
  intro less
  obtain ⟨ob, hob, name, hname, hget⟩ :=
    GetLatestWith_listed less (exampleBackup (listingService exampleListing))
      { Contents := exampleListing, IsTruncated := false, NextContinuationToken := none }
      rfl (by decide) (by decide)
  have hall : ∀ o ∈ exampleListing,
      stripNameBackup o.Key = .ok "20230101".toList ∨
      stripNameBackup o.Key = .ok "20230601".toList ∨
      stripNameBackup o.Key = .ok "20230301".toList := by
    decide
  rw [hget, ← hname]
  exact hall ob hob

/-- Claim C8: `Backup.CheckExistence` and `Archive.CheckExistence` are one and
the same function of the result of `HeadObject`, and that function is `false`
exactly on an `awserr.Error` whose code is "NotFound"; on a success, on an
`awserr.Error` with another code and on any other error it is `true`. -/
theorem CheckExistence_false_iff :
    ∃ f : Except GoError HeadObjectOutput → Bool,
      (∀ b : Backup, b.CheckExistence = f (b.Prefix.Svc.HeadObject b.CheckExistenceInput)) ∧
      (∀ a : Walg.Archive,
        a.CheckExistence = f (a.Prefix.Svc.HeadObject a.CheckExistenceInput)) ∧
      (∀ r, f r = false ↔ ∃ msg, r = .error (.awserr notFound msg)) ∧
      (∀ out, f (.ok out) = true) ∧
      (∀ code msg, code ≠ notFound → f (.error (.awserr code msg)) = true) ∧
      (∀ msg, f (.error (.plain msg)) = true) := by
  refine ⟨fun r => match r with
    | .error (.awserr code _) => if code = notFound then false else true
    | .error (.plain _) => true
    | .ok _ => true, ?_, ?_, ?_, ?_, ?_, ?_⟩
  · intro b
    simp only [Backup.CheckExistence]
    cases b.Prefix.Svc.HeadObject b.CheckExistenceInput with
    | error e => cases e <;> rfl
    | ok out => rfl
  · intro a
    simp only [Archive.CheckExistence]
    cases a.Prefix.Svc.HeadObject a.CheckExistenceInput with
    | error e => cases e <;> rfl
    | ok out => rfl
  · intro r
    cases r with
    | error e =>
      cases e with
      | awserr code msg =>
        by_cases hc : code = notFound
        · simp [hc]
        · simp [hc]
      | plain msg => simp
    | ok out => simp
  · intro out; rfl
  · intro code msg hc; simp [hc]
  · intro msg; rfl

/-- Claim C8 at the three kinds of probe result that are not a "NotFound", and
at a "NotFound". -/
theorem CheckExistence_false_iff_witness :
    ∃ f : Except GoError HeadObjectOutput → Bool,
      (exampleBackup (failingService accessDenied)).CheckExistence = f (.error accessDenied) ∧
      (exampleArchive (failingService timedOut)).CheckExistence = f (.error timedOut) ∧
      f (.error accessDenied) = true ∧ f (.error timedOut) = true ∧
      f (.ok { ContentLength := 0 }) = true ∧ f (.error (.awserr notFound [])) = false := by
  obtain ⟨f, hb, ha, hfalse, hok, hcode, hplain⟩ := CheckExistence_false_iff
  exact ⟨f, hb _, ha _, hcode _ _ (by decide), hplain _, hok _, (hfalse _).2 ⟨[], rfl⟩⟩

/-- Claim C9: `stripNameBackup` fails, with the index `[2]` out of range, if and
only if `SplitAfter(key, "/")` has fewer than three pieces, which is the case if
and only if `key` holds fewer than two "/".  A key with two "/" or more has a
third piece and, when that piece lacks "_backup", the whole piece is returned.
The index `[0]` on the marker split is in range for every text. -/
theorem stripNameBackup_fails_iff (key : GoString) :
    ((∃ p, stripNameBackup key = .error p) ↔ key.count '/' < 2) ∧
    ((SplitAfter key slash).length < 3 ↔ key.count '/' < 2) ∧
    (∀ p, stripNameBackup key = .error p →
      p = .indexOutOfRange 2 (SplitAfter key slash).length) ∧
    (2 ≤ key.count '/' → ∃ third, (SplitAfter key slash)[2]? = some third ∧
      (∃ name, stripNameBackup key = .ok name) ∧
      (¬ backupMarker <:+: third → stripNameBackup key = .ok third)) ∧
    (∀ s : GoString, ∃ name, index (Split s backupMarker) 0 = .ok name) := by
  have hlen := SplitAfter_slash_length key
  have hshort : key.count '/' < 2 →
      stripNameBackup key = .error (.indexOutOfRange 2 (SplitAfter key slash).length) :=
    fun h => stripNameBackup_short (by omega)
  have hlong : 2 ≤ key.count '/' → ∃ third, (SplitAfter key slash)[2]? = some third ∧
      (∃ name, stripNameBackup key = .ok name) ∧
      (¬ backupMarker <:+: third → stripNameBackup key = .ok third) := by
    intro h
    have h3 : 2 < (SplitAfter key slash).length := by omega
    refine ⟨(SplitAfter key slash)[2], List.getElem?_eq_getElem h3, ?_, ?_⟩
    · obtain ⟨name, _, _, hres⟩ := stripNameBackup_long (List.getElem?_eq_getElem h3)
      exact ⟨name, hres⟩
    · intro hno
      obtain ⟨name, rest, hsplit, hres⟩ := stripNameBackup_long (List.getElem?_eq_getElem h3)
      rw [Split, genSplit_of_Index_none 0 (by simp [backupMarker])
        (Index_of_absent _ hno)] at hsplit
      rw [hres, ← (List.cons.inj hsplit).1]
  refine ⟨⟨?_, fun h => ⟨_, hshort h⟩⟩, by omega, ?_, hlong, ?_⟩
  · rintro ⟨p, hp⟩
    by_contra hge
    obtain ⟨_, _, ⟨name, hname⟩, _⟩ := hlong (by omega)
    rw [hname] at hp
    cases hp
  · intro p hp
    by_cases hlt : key.count '/' < 2
    · rw [hshort hlt] at hp
      exact (Except.error.inj hp).symm
    · obtain ⟨_, _, ⟨name, hname⟩, _⟩ := hlong (by omega)
      rw [hname] at hp
      cases hp
  · intro s
    have hne : Split s backupMarker ≠ [] := genSplit_ne_nil s 0 (by simp [backupMarker])
    cases hs : Split s backupMarker with
    | nil => exact absurd hs hne
    | cons name rest => exact ⟨name, index_of_getElem? (List.getElem?_cons_zero)⟩

/-- Claim C9 at the key "a/b/c" (two "/", no marker: the third piece "c" is
returned) and at the key "a/b" (one "/": the index is out of range). -/
theorem stripNameBackup_fails_iff_witness :
    stripNameBackup "a/b/c".toList = .ok "c".toList ∧
    ∃ p, stripNameBackup "a/b".toList = .error p := by
  refine ⟨?_, ((stripNameBackup_fails_iff "a/b".toList).1).2 (by decide)⟩
  obtain ⟨third, hthird, _, hres⟩ := (stripNameBackup_fails_iff "a/b/c".toList).2.2.2.1 (by decide)
  have h3 : third = "c".toList := by
    have : (SplitAfter "a/b/c".toList slash)[2]? = some "c".toList := by decide
    rw [this] at hthird
    exact (Option.some.inj hthird).symm
  subst h3
  exact hres (by decide)

/-- Claim C10: when the listing succeeds, is not empty and every key has three
pieces or more, `GetLatest` returns `stripNameBackup(k)` for a key `k` of the
listing, whatever the order of `TimeSlice` is; when some listed key has fewer
than three pieces, `GetLatest` panics and returns no name. -/
theorem GetLatest_returns_listed_name (less : BackupTime → BackupTime → Bool) (b : Backup)
    (out : ListObjectsV2Output)
    (h : b.Prefix.Svc.ListObjectsV2 b.GetLatestInput = .ok out) :
    (out.Contents ≠ [] → (∀ ob ∈ out.Contents, 3 ≤ (SplitAfter ob.Key slash).length) →
      ∃ ob ∈ out.Contents, ∃ name,
        stripNameBackup ob.Key = .ok name ∧ b.GetLatestWith less = .ok name) ∧
    ((∃ ob ∈ out.Contents, (SplitAfter ob.Key slash).length < 3) →
      ∃ p, b.GetLatestWith less = .error p) := by
  refine ⟨fun hne hwf => GetLatestWith_listed less b out h hne hwf, ?_⟩
  intro hbad
  obtain ⟨p, hp⟩ := sortTimesLoop_panic out.Contents hbad
  exact ⟨p, by rw [GetLatestWith_of_listing less b h, hp]; rfl⟩

/-- Claim C10 at the listing of the example scenario and at a listing with a key
of two pieces. -/
theorem GetLatest_returns_listed_name_witness :
    (∃ ob ∈ exampleListing, ∃ name, stripNameBackup ob.Key = .ok name ∧
      (exampleBackup (listingService exampleListing)).GetLatestWith TimeSlice.Less
        = .ok name) ∧
    (∃ p, (exampleBackup (listingService malformedListing)).GetLatestWith TimeSlice.Less
      = .error p) :=
  ⟨(GetLatest_returns_listed_name TimeSlice.Less (exampleBackup (listingService exampleListing))
      { Contents := exampleListing, IsTruncated := false, NextContinuationToken := none }
      rfl).1 (by decide) (by decide),
   (GetLatest_returns_listed_name TimeSlice.Less
      (exampleBackup (listingService malformedListing))
      { Contents := malformedListing, IsTruncated := false, NextContinuationToken := none }
      rfl).2 (by decide)⟩

end Walg
